import Mathlib

/-!
Verification of the 5chUtils conversion pipeline.

The definitions below are a shallow embedding of the client-side conversion
code of the repository: the thread-URL to dat-URL deriver `convertToDatUrl`,
the dat-file parser `parseDatFile`, the dat serialization step of
`convertHtmlToDat` (called `serializeDat` here), the tag-normalization
transform `stripTagsKeepBrA`, and the HTML post parser `parseHtmlPosts`.
JavaScript regular expressions are embedded as explicit scanners with the
same leftmost-match and greedy/lazy backtracking behavior; JavaScript
strings are embedded as `List Char` (wrapped in `String` at the interfaces).
-/

set_option maxRecDepth 100000

namespace FiveChUtils

/-- One forum reply, mirroring the `Post` interface of the page component. -/
structure Post where
  name : String
  mail : String
  date : String
  id : String
  message : String
deriving DecidableEq, Repr

/-! ## URL deriver (`convertToDatUrl`)

The source matches the input against the regex
`https?:\/\/([^\/]+)\.([^\/]+)\/test\/read\.cgi\/([^\/]+)\/(\d+)`
(unanchored, leftmost match, greedy quantifiers).  Greediness of the first
`[^\/]+` means the host run is split at its last dot. -/

/-- Captures of the thread-URL regex, in order: server, domain, board, threadId. -/
structure UrlCaps where
  server : List Char
  domain : List Char
  board : List Char
  threadId : List Char
deriving DecidableEq, Repr

/-- Strip the literal pattern `p` from the front of `l` (case-sensitive). -/
def stripPre : List Char → List Char → Option (List Char)
  | [], l => some l
  | _ :: _, [] => none
  | p :: ps, c :: cs => if p = c then stripPre ps cs else none

/-- Split a character run at the last dot that leaves a nonempty suffix:
the split chosen by the greedy backtracking of `([^\/]+)\.([^\/]+)`.
The returned prefix may be empty; the caller rejects that case
(the regex needs a nonempty first group). -/
def splitLastDot : List Char → Option (List Char × List Char)
  | [] => none
  | c :: cs =>
    match splitLastDot cs with
    | some (g1, g2) => some (c :: g1, g2)
    | none => if c = '.' ∧ cs ≠ [] then some ([], cs) else none

/-- The character class `[^\/]` of the thread-URL regex. -/
def notSlash (c : Char) : Bool :=
  c != '/'

/-- Match the part of the thread-URL regex after `https?://`:
`([^\/]+)\.([^\/]+)\/test\/read\.cgi\/([^\/]+)\/(\d+)`. -/
def matchHost (r : List Char) : Option UrlCaps :=
  match splitLastDot (r.takeWhile notSlash) with
  | none => none
  | some (g1, g2) =>
    if g1 = [] then none
    else
      match stripPre ('/' :: 't' :: 'e' :: 's' :: 't' :: '/' :: 'r' :: 'e' :: 'a' :: 'd' :: '.' :: 'c' :: 'g' :: 'i' :: '/' :: []) (r.dropWhile notSlash) with
      | none => none
      | some r2 =>
        match r2.dropWhile notSlash with
        | '/' :: r3 =>
          if r2.takeWhile notSlash = [] then none
          else
            if r3.takeWhile Char.isDigit = [] then none
            else some ⟨g1, g2, r2.takeWhile notSlash, r3.takeWhile Char.isDigit⟩
        | _ => none

/-- Try the whole regex at the current position: `https?://` then the host part. -/
def matchUrlAt (l : List Char) : Option UrlCaps :=
  match stripPre ('h' :: 't' :: 't' :: 'p' :: 's' :: ':' :: '/' :: '/' :: []) l with
  | some r => matchHost r
  | none =>
    match stripPre ('h' :: 't' :: 't' :: 'p' :: ':' :: '/' :: '/' :: []) l with
    | some r => matchHost r
    | none => none

/-- Unanchored leftmost-match search, as performed by `String.prototype.match`. -/
def scanUrl : List Char → Option UrlCaps
  | [] => none
  | c :: cs =>
    match matchUrlAt (c :: cs) with
    | some caps => some caps
    | none => scanUrl cs

/-- Embedding of `convertToDatUrl` (page component): convert a 5ch thread URL
to a dat URL, with the archived (`isDatOchi`) and live addressing modes.
Returns `none` when the regex does not match or the thread id is shorter
than 5 characters. -/
def convertToDatUrl (url : String) (isDatOchi : Bool) : Option String :=
  match scanUrl url.data with
  | none => none
  | some caps =>
    let server : String := ⟨caps.server⟩
    let domain : String := ⟨caps.domain⟩
    let board : String := ⟨caps.board⟩
    let threadId : String := ⟨caps.threadId⟩
    if caps.threadId.length < 5 then none
    else if isDatOchi then
      if domain = "5ch.net" ∨ domain = "bbspink.com" then
        some ("https://" ++ server ++ "." ++ domain ++ "/" ++ board ++ "/oyster/" ++ (⟨caps.threadId.take 4⟩ : String) ++ "/" ++ threadId ++ ".dat")
      else
        some ("https://" ++ server ++ "." ++ domain ++ "/" ++ board ++ "/kako/" ++ (⟨caps.threadId.take 4⟩ : String) ++ "/" ++ (⟨caps.threadId.take 5⟩ : String) ++ "/" ++ threadId ++ ".dat")
    else
      some ("https://" ++ server ++ "." ++ domain ++ "/" ++ board ++ "/dat/" ++ threadId ++ ".dat")

/-- A thread URL of the shape the source's example comment shows:
`scheme://{server}.{domain}/test/read.cgi/{board}/{threadId}`. -/
def threadUrlOf (scheme server domain board tid : String) : String :=
  scheme ++ "://" ++ server ++ "." ++ domain ++ "/test/read.cgi/" ++ board ++ "/" ++ tid

/-! ## Dat parser (`parseDatFile`) -/

/-- The JavaScript whitespace class (`\s`, and the set removed by
`String.prototype.trim`): space characters, line terminators, BOM. -/
def isJsWs (c : Char) : Bool :=
  decide (c.toNat ∈ [0x9, 0xA, 0xB, 0xC, 0xD, 0x20, 0xA0, 0x1680,
    0x2000, 0x2001, 0x2002, 0x2003, 0x2004, 0x2005, 0x2006, 0x2007,
    0x2008, 0x2009, 0x200A, 0x2028, 0x2029, 0x202F, 0x205F, 0x3000, 0xFEFF])

/-- Remove trailing JavaScript whitespace. -/
def trimRight (l : List Char) : List Char :=
  (l.reverse.dropWhile isJsWs).reverse

/-- `String.prototype.trim`: remove leading and trailing whitespace. -/
def jsTrim (l : List Char) : List Char :=
  trimRight (l.dropWhile isJsWs)

/-- `content.split('\n')`: split on every line feed, keeping empty pieces. -/
def splitLines : List Char → List (List Char)
  | [] => [[]]
  | c :: cs =>
    if c = '\n' then [] :: splitLines cs
    else
      match splitLines cs with
      | [] => [[c]]
      | l :: ls => (c :: l) :: ls

/-- `line.split('<>')`: split on every occurrence of the two-character
separator, scanning left to right. -/
def splitSep : List Char → List (List Char)
  | [] => [[]]
  | [c] => [[c]]
  | c1 :: c2 :: cs =>
    if c1 = '<' ∧ c2 = '>' then
      [] :: splitSep cs
    else
      match splitSep (c2 :: cs) with
      | [] => [[c1]]
      | p :: ps => (c1 :: p) :: ps

/-- Whether the separator `<>` occurs as a substring. -/
def hasSep : List Char → Bool
  | [] => false
  | [_] => false
  | c1 :: c2 :: cs => (decide (c1 = '<') && decide (c2 = '>')) || hasSep (c2 :: cs)

/-- The character class `[^\s]`. -/
def nonWs (c : Char) : Bool :=
  !(isJsWs c)

/-- Try the regex `/ID:([^\s]+)/` exactly at the head of the list.  On success,
returns the captured non-whitespace run and the remainder after the match. -/
def idRunAt : List Char → Option (List Char × List Char)
  | c1 :: c2 :: c3 :: rest =>
    if c1 = 'I' ∧ c2 = 'D' ∧ c3 = ':' then
      if rest.takeWhile nonWs = [] then none
      else some (rest.takeWhile nonWs, rest.drop (rest.takeWhile nonWs).length)
    else none
  | _ => none

/-- `dateAndId.match(/ID:([^\s]+)/)`: leftmost match, returning the capture. -/
def findId : List Char → Option (List Char)
  | [] => none
  | c :: cs =>
    match idRunAt (c :: cs) with
    | some (run, _) => some run
    | none => findId cs

/-- `dateAndId.replace(/ID:[^\s]+/, '')`: remove the first match, if any. -/
def removeId : List Char → List Char
  | [] => []
  | c :: cs =>
    match idRunAt (c :: cs) with
    | some (_, after) => after
    | none => c :: removeId cs

/-- Parse one dat line into a `Post` (the body of the `forEach` in
`parseDatFile`): split on `<>`, require at least 4 fields, substitute the
placeholder name for an empty name field, extract the id and date from the
third field.  Lines with fewer than 4 fields yield `none`. -/
def parseLine (l : List Char) : Option Post :=
  match splitSep l with
  | n :: m :: d :: msg :: _ =>
    some { name := if n = [] then "名無しさん" else ⟨n⟩
         , mail := ⟨m⟩
         , date := ⟨jsTrim (removeId d)⟩
         , id := ⟨(findId d).getD []⟩
         , message := ⟨msg⟩ }
  | _ => none

/-- Embedding of `parseDatFile`: split into lines, drop whitespace-only
lines, parse each remaining line, silently dropping malformed ones. -/
def parseDatFile (content : String) : List Post :=
  ((splitLines content.data).filter (fun l => !(jsTrim l).isEmpty)).filterMap parseLine

/-- Total variant of `parseLine` used to state which post a good line maps to. -/
def extractPost (l : List Char) : Post :=
  let parts := splitSep l
  let n := parts.getD 0 []
  let m := parts.getD 1 []
  let d := parts.getD 2 []
  let msg := parts.getD 3 []
  { name := if n = [] then "名無しさん" else ⟨n⟩
  , mail := ⟨m⟩
  , date := ⟨jsTrim (removeId d)⟩
  , id := ⟨(findId d).getD []⟩
  , message := ⟨msg⟩ }

/-- A dat line that survives `parseDatFile`: splitting on `<>` yields at
least 4 fields, and the line is not whitespace-only. -/
def goodLine (l : List Char) : Bool :=
  decide (4 ≤ (splitSep l).length) && !(jsTrim l).isEmpty

/-! ## Dat serializer (the serialization step of `convertHtmlToDat`) -/

/-- One serialized dat record:
`{name}<>{mail}<>{date}{" ID:"+id if id non-empty}<>{message}<>`. -/
def serializeLine (p : Post) : List Char :=
  p.name.data ++ '<' :: '>' ::
    (p.mail.data ++ '<' :: '>' ::
      ((p.date.data ++ (if p.id.data = [] then [] else ' ' :: 'I' :: 'D' :: ':' :: p.id.data)) ++ '<' :: '>' ::
        (p.message.data ++ ['<', '>'])))

/-- `Array.prototype.join('\n')` on character lists. -/
def joinNl : List (List Char) → List Char
  | [] => []
  | [l] => l
  | l :: l2 :: ls => l ++ '\n' :: joinNl (l2 :: ls)

/-- Embedding of the dat serialization in `convertHtmlToDat`:
`datLines.join('\n') + (datLines.length > 0 ? '\n' : '')`. -/
def serializeDat (posts : List Post) : String :=
  ⟨joinNl (posts.map serializeLine) ++ (if posts.isEmpty then [] else ['\n'])⟩

/-- The record format as worded by the specification (built with plain string
concatenation), used to state that `serializeDat` implements it. -/
def specLine (p : Post) : String :=
  p.name ++ "<>" ++ p.mail ++ "<>" ++ p.date ++ (if p.id ≠ "" then " ID:" ++ p.id else "") ++ "<>" ++ p.message ++ "<>"

/-- Join lines with a line feed, as worded by the specification. -/
def joinLinesSpec : List String → String
  | [] => ""
  | [l] => l
  | l :: l2 :: ls => l ++ "\n" ++ joinLinesSpec (l2 :: ls)

/-- The serializer as worded by the specification: records joined by line
feed, one trailing line feed exactly when the sequence is non-empty. -/
def serializeDatSpec (posts : List Post) : String :=
  joinLinesSpec (posts.map specLine) ++ (if posts.isEmpty then "" else "\n")

/-- The side conditions under which one serialized record parses back to the
same post: no `<>` and no line feed inside any field, a non-empty name, a
whitespace-free id, a date that is already trimmed and contains no
`ID:`-plus-non-whitespace run. -/
abbrev GoodPost (p : Post) : Prop :=
  hasSep p.name.data = false ∧ hasSep p.mail.data = false ∧ hasSep p.date.data = false ∧
  hasSep p.id.data = false ∧ hasSep p.message.data = false ∧
  '\n' ∉ p.name.data ∧ '\n' ∉ p.mail.data ∧ '\n' ∉ p.date.data ∧
  '\n' ∉ p.id.data ∧ '\n' ∉ p.message.data ∧
  p.name.data ≠ [] ∧ (∀ c ∈ p.id.data, nonWs c = true) ∧
  jsTrim p.date.data = p.date.data ∧ findId p.date.data = none

/-! ## HTML to dat conversion (`stripTagsKeepBrA`, `parseHtmlPosts`)

Each JavaScript regex pass is embedded as a scanner with the same
leftmost-match semantics.  Scanners that can consume more than one character
per step take a fuel argument; callers pass the input length plus one, which
is an upper bound on the number of steps since every step consumes at least
one input character. -/

/-- Case-insensitive character comparison (the `i` regex flag). -/
def lcEq (a b : Char) : Bool :=
  a.toLower == b.toLower

/-- Strip a literal pattern case-insensitively. -/
def stripPreCI : List Char → List Char → Option (List Char)
  | [], l => some l
  | _ :: _, [] => none
  | p :: ps, c :: cs => if lcEq p c then stripPreCI ps cs else none

/-- The JavaScript word-character class `\w` (for `\b` boundaries). -/
def isWordChar (c : Char) : Bool :=
  c.isAlpha || c.isDigit || c == '_'

/-- Match `/<\/?wbr\s*\/?>/i` at the head; returns the rest after the match. -/
def matchWbr (l : List Char) : Option (List Char) :=
  match l with
  | '<' :: rest =>
    let rest1 := match rest with
      | '/' :: r => r
      | _ => rest
    match stripPreCI ('w' :: 'b' :: 'r' :: []) rest1 with
    | none => none
    | some r2 =>
      let r3 := r2.dropWhile isJsWs
      let r4 := match r3 with
        | '/' :: r => r
        | _ => r3
      match r4 with
      | '>' :: r5 => some r5
      | _ => none
  | _ => none

/-- `bodyHtml.replace(/<\/?wbr\s*\/?>/gi, '')`. -/
def replWbr : Nat → List Char → List Char
  | 0, l => l
  | _ + 1, [] => []
  | fuel + 1, c :: cs =>
    match matchWbr (c :: cs) with
    | some rest => replWbr fuel rest
    | none => c :: replWbr fuel cs

/-- Match `/<br\s*\/?>/i` at the head; returns the rest after the match. -/
def matchBrTag (l : List Char) : Option (List Char) :=
  match l with
  | '<' :: rest =>
    match stripPreCI ('b' :: 'r' :: []) rest with
    | none => none
    | some r2 =>
      let r3 := r2.dropWhile isJsWs
      let r4 := match r3 with
        | '/' :: r => r
        | _ => r3
      match r4 with
      | '>' :: r5 => some r5
      | _ => none
  | _ => none

/-- `bodyHtml.replace(/<br\s*\/?>/gi, '<br>')`. -/
def replBr : Nat → List Char → List Char
  | 0, l => l
  | _ + 1, [] => []
  | fuel + 1, c :: cs =>
    match matchBrTag (c :: cs) with
    | some rest => '<' :: 'b' :: 'r' :: '>' :: replBr fuel rest
    | none => c :: replBr fuel cs

/-- Find the earliest case-insensitive `</a>` (the lazy `([\s\S]*?)<\/a>`);
returns the inner content and the rest after the closing tag. -/
def findCloseA : Nat → List Char → Option (List Char × List Char)
  | 0, _ => none
  | _ + 1, [] => none
  | fuel + 1, c :: cs =>
    match c :: cs with
    | '<' :: '/' :: a :: '>' :: rest =>
      if a == 'a' || a == 'A' then some ([], rest)
      else
        match findCloseA fuel cs with
        | some (inner, after) => some (c :: inner, after)
        | none => none
    | _ =>
      match findCloseA fuel cs with
      | some (inner, after) => some (c :: inner, after)
      | none => none

/-- `attrs.match(/\bhref="([^"]+)"/i)`: leftmost match, tracking the
previous character for the word boundary. -/
def findHref : Option Char → List Char → Option (List Char)
  | _, [] => none
  | prev, c :: cs =>
    match stripPreCI ('h' :: 'r' :: 'e' :: 'f' :: '=' :: '"' :: []) (c :: cs) with
    | some rest =>
      if (match prev with | none => true | some q => !(isWordChar q)) then
        if (rest.takeWhile (fun x => x ≠ '"')) ≠ [] ∧
            rest.drop (rest.takeWhile (fun x => x ≠ '"')).length ≠ [] then
          some (rest.takeWhile (fun x => x ≠ '"'))
        else findHref (some c) cs
      else findHref (some c) cs
    | none => findHref (some c) cs

/-- Match `/<a\b([^>]*?)>([\s\S]*?)<\/a>/i` at the head: returns the
attribute text, the inner content, and the rest after the match. -/
def matchAnchor (fuel : Nat) (l : List Char) : Option (List Char × List Char × List Char) :=
  match l with
  | '<' :: a :: rest =>
    if (a == 'a' || a == 'A') && (match rest with | [] => true | r :: _ => !(isWordChar r)) then
      match rest.drop (rest.takeWhile (fun x => x ≠ '>')).length with
      | '>' :: r2 =>
        match findCloseA fuel r2 with
        | some (inner, after) => some (rest.takeWhile (fun x => x ≠ '>'), inner, after)
        | none => none
      | _ => none
    else none
  | _ => none

/-- The rebuilt minimal anchor stored in the side list: keeps only `href`
and the original inner content; an anchor without `href` is replaced by its
bare inner content. -/
def anchorTag (attrs inner : List Char) : List Char :=
  match findHref none attrs with
  | some h =>
    '<' :: 'a' :: ' ' :: 'h' :: 'r' :: 'e' :: 'f' :: '=' :: '"' ::
      (h ++ '"' :: '>' :: (inner ++ '<' :: '/' :: 'a' :: '>' :: []))
  | none => inner

/-- The anchor extraction pass: replace each anchor with the placeholder
`\x00A{index}\x00` and push the rebuilt tag onto the ordered side list. -/
def extractAnchors : Nat → List Char → List (List Char) → List Char × List (List Char)
  | 0, l, acc => (l, acc)
  | _ + 1, [], acc => ([], acc)
  | fuel + 1, c :: cs, acc =>
    match matchAnchor (fuel + 1) (c :: cs) with
    | some (attrs, inner, after) =>
      let res := extractAnchors fuel after (acc ++ [anchorTag attrs inner])
      ('\x00' :: 'A' :: ((Nat.repr acc.length).data ++ '\x00' :: res.1), res.2)
    | none =>
      let res := extractAnchors fuel cs acc
      (c :: res.1, res.2)

/-- `bodyHtml.replace(/<br>/g, '\x00BR\x00')` (case-sensitive). -/
def replBrPh : Nat → List Char → List Char
  | 0, l => l
  | _ + 1, [] => []
  | fuel + 1, c :: cs =>
    match c :: cs with
    | '<' :: 'b' :: 'r' :: '>' :: rest => '\x00' :: 'B' :: 'R' :: '\x00' :: replBrPh fuel rest
    | _ => c :: replBrPh fuel cs

/-- `bodyHtml.replace(/<[^>]+>/g, '')`. -/
def stripTags : Nat → List Char → List Char
  | 0, l => l
  | _ + 1, [] => []
  | fuel + 1, c :: cs =>
    if c = '<' then
      if (cs.takeWhile (fun x => x ≠ '>')) ≠ [] ∧
          cs.drop (cs.takeWhile (fun x => x ≠ '>')).length ≠ [] then
        stripTags fuel (cs.drop ((cs.takeWhile (fun x => x ≠ '>')).length + 1))
      else c :: stripTags fuel cs
    else c :: stripTags fuel cs

/-- `bodyHtml.replace(/\x00BR\x00/g, '<br>')`. -/
def restoreBr : Nat → List Char → List Char
  | 0, l => l
  | _ + 1, [] => []
  | fuel + 1, c :: cs =>
    match c :: cs with
    | '\x00' :: 'B' :: 'R' :: '\x00' :: rest => '<' :: 'b' :: 'r' :: '>' :: restoreBr fuel rest
    | _ => c :: restoreBr fuel cs

/-- `parseInt` on a run of decimal digits. -/
def digitsToNat (ds : List Char) : Nat :=
  ds.foldl (fun a c => a * 10 + (c.toNat - 48)) 0

/-- `bodyHtml.replace(/\x00A(\d+)\x00/g, (m, i) => anchors[parseInt(i)])`;
an out-of-range index yields the string coercion of `undefined`. -/
def restoreAnchors (anchors : List (List Char)) : Nat → List Char → List Char
  | 0, l => l
  | _ + 1, [] => []
  | fuel + 1, c :: cs =>
    match c :: cs with
    | '\x00' :: 'A' :: rest =>
      if rest.takeWhile Char.isDigit ≠ [] then
        match rest.drop (rest.takeWhile Char.isDigit).length with
        | '\x00' :: rest2 =>
          anchors.getD (digitsToNat (rest.takeWhile Char.isDigit))
              ('u' :: 'n' :: 'd' :: 'e' :: 'f' :: 'i' :: 'n' :: 'e' :: 'd' :: [])
            ++ restoreAnchors anchors fuel rest2
        | _ => c :: restoreAnchors anchors fuel cs
      else c :: restoreAnchors anchors fuel cs
    | _ => c :: restoreAnchors anchors fuel cs

/-- The character class `[ \t\f\v]`. -/
def isHWs (c : Char) : Bool :=
  c == ' ' || c == '\t' || c == '\x0b' || c == '\x0c'

/-- `bodyHtml.replace(/[ \t\f\v]+/g, ' ')`. -/
def collapseWs : Nat → List Char → List Char
  | 0, l => l
  | _ + 1, [] => []
  | fuel + 1, c :: cs =>
    if isHWs c then ' ' :: collapseWs fuel (cs.dropWhile isHWs)
    else c :: collapseWs fuel cs

/-- Match `/ ?<br> ?/` at the head; returns the rest after the match. -/
def matchSpBr (l : List Char) : Option (List Char) :=
  let l1 := match l with
    | ' ' :: r => r
    | _ => l
  match l1 with
  | '<' :: 'b' :: 'r' :: '>' :: rest =>
    some (match rest with
      | ' ' :: r2 => r2
      | _ => rest)
  | _ => none

/-- `bodyHtml.replace(/ ?<br> ?/g, '<br>')`. -/
def replSpBr : Nat → List Char → List Char
  | 0, l => l
  | _ + 1, [] => []
  | fuel + 1, c :: cs =>
    match matchSpBr (c :: cs) with
    | some rest => '<' :: 'b' :: 'r' :: '>' :: replSpBr fuel rest
    | none => c :: replSpBr fuel cs

/-- Embedding of `stripTagsKeepBrA` (called `normalize` in the spec): the
order-sensitive tag-normalization pipeline of the page component. -/
def stripTagsKeepBrA (bodyHtml : String) : String :=
  let l0 := bodyHtml.data
  let l1 := replWbr (l0.length + 1) l0
  let l2 := replBr (l1.length + 1) l1
  let ea := extractAnchors (l2.length + 1) l2 []
  let l4 := replBrPh (ea.1.length + 1) ea.1
  let l5 := stripTags (l4.length + 1) l4
  let l6 := l5.filter (fun c => c ≠ '\r')
  let l7 := restoreBr (l6.length + 1) l6
  let l8 := restoreAnchors ea.2 (l7.length + 1) l7
  let l9 := collapseWs (l8.length + 1) l8
  let l10 := replSpBr (l9.length + 1) l9
  ⟨jsTrim l10⟩

/-- Modelled from the spec: the source's `unescapeHtml` decodes HTML
character entities by assigning to a detached DOM textarea, a browser
facility whose code is not under src/.  Following the spec's porting note
(§9), this decodes the five predefined XML entities and numeric character
references and leaves all other text unchanged. -/
def unescapeHtmlAux : Nat → List Char → List Char
  | 0, l => l
  | _ + 1, [] => []
  | fuel + 1, c :: cs =>
    if c = '&' then
      match stripPre ('a' :: 'm' :: 'p' :: ';' :: []) cs with
      | some r => '&' :: unescapeHtmlAux fuel r
      | none =>
      match stripPre ('l' :: 't' :: ';' :: []) cs with
      | some r => '<' :: unescapeHtmlAux fuel r
      | none =>
      match stripPre ('g' :: 't' :: ';' :: []) cs with
      | some r => '>' :: unescapeHtmlAux fuel r
      | none =>
      match stripPre ('q' :: 'u' :: 'o' :: 't' :: ';' :: []) cs with
      | some r => '"' :: unescapeHtmlAux fuel r
      | none =>
      match stripPre ('a' :: 'p' :: 'o' :: 's' :: ';' :: []) cs with
      | some r => '\'' :: unescapeHtmlAux fuel r
      | none =>
      match cs with
      | '#' :: ds =>
        if ds.takeWhile Char.isDigit ≠ [] then
          match ds.drop (ds.takeWhile Char.isDigit).length with
          | ';' :: r2 =>
            Char.ofNat (digitsToNat (ds.takeWhile Char.isDigit)) :: unescapeHtmlAux fuel r2
          | _ => c :: unescapeHtmlAux fuel cs
        else c :: unescapeHtmlAux fuel cs
      | _ => c :: unescapeHtmlAux fuel cs
    else c :: unescapeHtmlAux fuel cs

/-- See `unescapeHtmlAux`. -/
def unescapeHtml (l : List Char) : List Char :=
  unescapeHtmlAux (l.length + 1) l

/-- `postHtml.match(/href="mailto:([^"]*)"/i)`: leftmost match. -/
def findMailto : List Char → Option (List Char)
  | [] => none
  | c :: cs =>
    match stripPreCI ('h' :: 'r' :: 'e' :: 'f' :: '=' :: '"' :: 'm' :: 'a' :: 'i' :: 'l' :: 't' :: 'o' :: ':' :: []) (c :: cs) with
    | some rest =>
      if rest.drop (rest.takeWhile (fun x => x ≠ '"')).length ≠ [] then
        some (rest.takeWhile (fun x => x ≠ '"'))
      else findMailto cs
    | none => findMailto cs

/-- Match `<span\s+class="{cls}">` (case-insensitive) at the head; returns
the rest after the opening tag. -/
def matchSpanOpen (cls : List Char) (l : List Char) : Option (List Char) :=
  match stripPreCI ('<' :: 's' :: 'p' :: 'a' :: 'n' :: []) l with
  | none => none
  | some r1 =>
    if r1.takeWhile isJsWs = [] then none
    else
      stripPreCI (('c' :: 'l' :: 'a' :: 's' :: 's' :: '=' :: '"' :: []) ++ cls ++ ('"' :: '>' :: []))
        (r1.drop (r1.takeWhile isJsWs).length)

/-- Find the earliest case-insensitive `</{tag}>`: inner content and rest. -/
def findCloseTag (tag : List Char) : Nat → List Char → Option (List Char × List Char)
  | 0, _ => none
  | _ + 1, [] => none
  | fuel + 1, c :: cs =>
    match stripPreCI (('<' :: '/' :: []) ++ tag ++ ['>']) (c :: cs) with
    | some rest => some ([], rest)
    | none =>
      match findCloseTag tag fuel cs with
      | some (inner, after) => some (c :: inner, after)
      | none => none

/-- `postHtml.match(/<span\s+class="postusername">([\s\S]*?)<\/span>/i)`. -/
def findUsernameSpan : Nat → List Char → Option (List Char)
  | 0, _ => none
  | _ + 1, [] => none
  | fuel + 1, c :: cs =>
    match matchSpanOpen ('p' :: 'o' :: 's' :: 't' :: 'u' :: 's' :: 'e' :: 'r' :: 'n' :: 'a' :: 'm' :: 'e' :: []) (c :: cs) with
    | some r2 =>
      match findCloseTag ('s' :: 'p' :: 'a' :: 'n' :: []) (fuel + 1) r2 with
      | some (inner, _) => some inner
      | none => findUsernameSpan fuel cs
    | none => findUsernameSpan fuel cs

/-- `block.match(/>([^<]+)<\/a>/i)`: leftmost match, returning the capture. -/
def findGtTextCloseA : List Char → Option (List Char)
  | [] => none
  | c :: cs =>
    if c = '>' then
      if (cs.takeWhile (fun x => x ≠ '<')) ≠ [] then
        match stripPreCI ('<' :: '/' :: 'a' :: '>' :: []) (cs.drop (cs.takeWhile (fun x => x ≠ '<')).length) with
        | some _ => some (cs.takeWhile (fun x => x ≠ '<'))
        | none => findGtTextCloseA cs
      else findGtTextCloseA cs
    else findGtTextCloseA cs

/-- Embedding of `extractNameAndMail`: the mailto target (entity-decoded and
trimmed) and the username (anchor text if the username block wraps a link,
otherwise the block with all tags stripped; entity-decoded and trimmed). -/
def extractNameAndMail (postHtml : List Char) : List Char × List Char :=
  let mail := match findMailto postHtml with
    | some m => jsTrim (unescapeHtml m)
    | none => []
  let name0 := match findUsernameSpan (postHtml.length + 1) postHtml with
    | some block =>
      match findGtTextCloseA block with
      | some t => t
      | none => stripTags (block.length + 1) block
    | none => []
  (jsTrim (unescapeHtml name0), mail)

/-- `block.match(/<span\s+class="date">\s*([^<]+?)\s*<\/span>/i)`: the
capture is the element text with the surrounding whitespace absorbed by the
greedy `\s*` before and the lazy group stopping before the trailing `\s*`;
if the text is all whitespace, the lazy `[^<]+?` keeps a single character. -/
def findDateSpan : Nat → List Char → Option (List Char)
  | 0, _ => none
  | _ + 1, [] => none
  | fuel + 1, c :: cs =>
    match matchSpanOpen ('d' :: 'a' :: 't' :: 'e' :: []) (c :: cs) with
    | some r2 =>
      if r2.takeWhile (fun x => x ≠ '<') ≠ [] then
        match stripPreCI ('<' :: '/' :: 's' :: 'p' :: 'a' :: 'n' :: '>' :: [])
            (r2.drop (r2.takeWhile (fun x => x ≠ '<')).length) with
        | some _ =>
          let body := r2.takeWhile (fun x => x ≠ '<')
          let b2 := body.dropWhile isJsWs
          if b2 = [] then some [body.reverse.headD ' ']
          else some (trimRight b2)
        | none => findDateSpan fuel cs
      else findDateSpan fuel cs
    | none => findDateSpan fuel cs

/-- `block.match(/<span\s+class="uid">\s*ID:([^<]+?)\s*<\/span>/i)`. -/
def findUidSpan : Nat → List Char → Option (List Char)
  | 0, _ => none
  | _ + 1, [] => none
  | fuel + 1, c :: cs =>
    match matchSpanOpen ('u' :: 'i' :: 'd' :: []) (c :: cs) with
    | some r2 =>
      match stripPreCI ('<' :: '/' :: 's' :: 'p' :: 'a' :: 'n' :: '>' :: [])
          (r2.drop (r2.takeWhile (fun x => x ≠ '<')).length) with
      | some _ =>
        let body := r2.takeWhile (fun x => x ≠ '<')
        match stripPreCI ('I' :: 'D' :: ':' :: []) (body.dropWhile isJsWs) with
        | some r3 =>
          if r3 = [] then findUidSpan fuel cs
          else if trimRight r3 = [] then some [r3.headD ' ']
          else some (trimRight r3)
        | none => findUidSpan fuel cs
      | none => findUidSpan fuel cs
    | none => findUidSpan fuel cs

/-- Match `<section\s+class="post-content">` at the head. -/
def matchSectionOpen (l : List Char) : Option (List Char) :=
  match stripPreCI ('<' :: 's' :: 'e' :: 'c' :: 't' :: 'i' :: 'o' :: 'n' :: []) l with
  | none => none
  | some r1 =>
    if r1.takeWhile isJsWs = [] then none
    else
      stripPreCI (('c' :: 'l' :: 'a' :: 's' :: 's' :: '=' :: '"' :: []) ++
          ('p' :: 'o' :: 's' :: 't' :: '-' :: 'c' :: 'o' :: 'n' :: 't' :: 'e' :: 'n' :: 't' :: []) ++
          ('"' :: '>' :: []))
        (r1.drop (r1.takeWhile isJsWs).length)

/-- `block.match(/<section\s+class="post-content">([\s\S]*?)<\/section>/i)`. -/
def findContentSection : Nat → List Char → Option (List Char)
  | 0, _ => none
  | _ + 1, [] => none
  | fuel + 1, c :: cs =>
    match matchSectionOpen (c :: cs) with
    | some r2 =>
      match findCloseTag ('s' :: 'e' :: 'c' :: 't' :: 'i' :: 'o' :: 'n' :: []) (fuel + 1) r2 with
      | some (inner, _) => some inner
      | none => findContentSection fuel cs
    | none => findContentSection fuel cs

/-- The `\bpost\b` search inside a class attribute value: some split point
has a non-word (or absent) character on each side of a case-insensitive
`post`. -/
def classOkAt (v : List Char) (j : Nat) : Bool :=
  (if j = 0 then true else !(isWordChar (v.getD (j - 1) ' '))) &&
  (match stripPreCI ('p' :: 'o' :: 's' :: 't' :: []) (v.drop j) with
   | some rest =>
     match rest with
     | [] => true
     | x :: _ => !(isWordChar x)
   | none => false)

/-- Whether the class value contains the standalone token `post`. -/
def hasPostToken (v : List Char) : Bool :=
  (List.range (v.length + 1)).any (fun j => classOkAt v j)

/-- Try the tail `[^>]*\bclass="[^"]*\bpost\b[^"]*"[^>]*>` of the post-div
regex with the first `[^>]*` consuming exactly `k` characters. -/
def tryClassAt (r3 : List Char) (k : Nat) : Option (List Char) :=
  if k = 0 || !(isWordChar (r3.getD (k - 1) ' ')) then
    match stripPreCI ('c' :: 'l' :: 'a' :: 's' :: 's' :: '=' :: '"' :: []) (r3.drop k) with
    | none => none
    | some r4 =>
      match r4.drop (r4.takeWhile (fun x => x ≠ '"')).length with
      | '"' :: r5 =>
        if hasPostToken (r4.takeWhile (fun x => x ≠ '"')) then
          match r5.drop (r5.takeWhile (fun x => x ≠ '>')).length with
          | '>' :: r6 => some r6
          | _ => none
        else none
      | _ => none
  else none

/-- Greedy backtracking over the first `[^>]*`: try the longest split first. -/
def searchK (r3 : List Char) : Nat → Option (List Char)
  | 0 => tryClassAt r3 0
  | k + 1 =>
    match tryClassAt r3 (k + 1) with
    | some r => some r
    | none => searchK r3 k

/-- Match the post-container regex
`/<div\s+id="(\d+)"[^>]*\bclass="[^"]*\bpost\b[^"]*"[^>]*>/i` at the head;
returns the rest after the match. -/
def matchDivPost (l : List Char) : Option (List Char) :=
  match stripPreCI ('<' :: 'd' :: 'i' :: 'v' :: []) l with
  | none => none
  | some r1 =>
    if r1.takeWhile isJsWs = [] then none
    else
      match stripPreCI ('i' :: 'd' :: '=' :: '"' :: []) (r1.drop (r1.takeWhile isJsWs).length) with
      | none => none
      | some r2 =>
        if r2.takeWhile Char.isDigit = [] then none
        else
          match r2.drop (r2.takeWhile Char.isDigit).length with
          | '"' :: r3 => searchK r3 (r3.takeWhile (fun x => x ≠ '>')).length
          | _ => none

/-- `htmlText.matchAll(divPostRegex)`: the (index, length) of every match,
scanning forward and resuming after each match. -/
def findDivPosts : Nat → Nat → List Char → List (Nat × Nat)
  | 0, _, _ => []
  | _ + 1, _, [] => []
  | fuel + 1, pos, c :: cs =>
    match matchDivPost (c :: cs) with
    | some rest =>
      (pos, (c :: cs).length - rest.length) ::
        findDivPosts fuel (pos + ((c :: cs).length - rest.length)) rest
    | none => findDivPosts fuel (pos + 1) cs

/-- Each post's span runs from its marker to the next marker (or the end of
the document for the last one). -/
def postBlocks (l : List Char) : List (Nat × Nat) → List (List Char)
  | [] => []
  | (p, _) :: rest =>
    ((l.drop p).take ((match rest with | (q, _) :: _ => q | [] => l.length) - p)) ::
      postBlocks l rest

/-- Embedding of `parseHtmlPosts`: locate the post containers and extract
name, mail, date, id and normalized message from each block.  The source's
`name: name || ''` is the identity on the string `name` and is embedded as
such. -/
def parseHtmlPosts (htmlText : String) : List Post :=
  (postBlocks htmlText.data (findDivPosts (htmlText.data.length + 1) 0 htmlText.data)).map
    (fun block =>
      let nm := extractNameAndMail block
      let date := match findDateSpan (block.length + 1) block with
        | some cap => jsTrim (unescapeHtml cap)
        | none => []
      let id := match findUidSpan (block.length + 1) block with
        | some cap => jsTrim (unescapeHtml cap)
        | none => []
      let bodyHtml := match findContentSection (block.length + 1) block with
        | some inner => inner
        | none => []
      { name := ⟨nm.1⟩
      , mail := ⟨nm.2⟩
      , date := ⟨date⟩
      , id := ⟨id⟩
      , message := stripTagsKeepBrA ⟨bodyHtml⟩ })

/-! ## Helper lemmas: list scanning -/

theorem takeWhile_all (p : Char → Bool) (l : List Char) (h : ∀ c ∈ l, p c = true) :
    l.takeWhile p = l := by
  induction l with
  | nil => rfl
  | cons a l ih =>
    rw [List.takeWhile_cons_of_pos (h a (List.mem_cons_self a l))]
    rw [ih (fun c hc => h c (List.mem_cons_of_mem a hc))]

theorem takeWhile_append_sat (p : Char → Bool) (xs : List Char) (y : Char) (ys : List Char)
    (hx : ∀ c ∈ xs, p c = true) (hy : p y = false) :
    (xs ++ y :: ys).takeWhile p = xs := by
  induction xs with
  | nil =>
    rw [List.nil_append, List.takeWhile_cons_of_neg (by simp [hy])]
  | cons a xs ih =>
    rw [List.cons_append, List.takeWhile_cons_of_pos (hx a (List.mem_cons_self a xs))]
    rw [ih (fun c hc => hx c (List.mem_cons_of_mem a hc))]

theorem dropWhile_append_sat (p : Char → Bool) (xs : List Char) (y : Char) (ys : List Char)
    (hx : ∀ c ∈ xs, p c = true) (hy : p y = false) :
    (xs ++ y :: ys).dropWhile p = y :: ys := by
  induction xs with
  | nil =>
    rw [List.nil_append, List.dropWhile_cons_of_neg (by simp [hy])]
  | cons a xs ih =>
    rw [List.cons_append, List.dropWhile_cons_of_pos (hx a (List.mem_cons_self a xs))]
    exact ih (fun c hc => hx c (List.mem_cons_of_mem a hc))

theorem stripPre_append (p l : List Char) : stripPre p (p ++ l) = some l := by
  induction p with
  | nil => rfl
  | cons a p ih => simp [stripPre, ih]

theorem splitLastDot_of_not_mem {l : List Char} (h : '.' ∉ l) : splitLastDot l = none := by
  induction l with
  | nil => rfl
  | cons c cs ih =>
    have hc : ¬(c = '.') := fun he => h (by simp [he])
    have h' : '.' ∉ cs := fun hm => h (List.mem_cons_of_mem c hm)
    simp [splitLastDot, ih h', hc]

theorem splitLastDot_append {xs ys : List Char} (h1 : '.' ∉ ys) (h2 : ys ≠ []) :
    splitLastDot (xs ++ '.' :: ys) = some (xs, ys) := by
  induction xs with
  | nil => simp [splitLastDot, splitLastDot_of_not_mem h1, h2]
  | cons a xs ih => simp [splitLastDot, ih]

theorem notSlash_eq_true {c : Char} (h : c ≠ '/') : notSlash c = true := by
  simp [notSlash, h]

theorem ne_slash_of_not_mem {xs : List Char} (h : '/' ∉ xs) :
    ∀ c ∈ xs, notSlash c = true := by
  intro c hc
  exact notSlash_eq_true (fun he => h (he ▸ hc))

/-! ## Helper lemmas: the URL regex on a well-formed thread URL -/

theorem matchHost_eval (server domain board tid : List Char)
    (hs1 : server ≠ []) (hs2 : '/' ∉ server)
    (hd1 : domain ≠ []) (hd2 : '/' ∉ domain) (hd3 : '.' ∉ domain)
    (hb1 : board ≠ []) (hb2 : '/' ∉ board)
    (ht1 : ∀ c ∈ tid, c.isDigit = true) (ht2 : tid ≠ []) :
    matchHost (server ++ '.' :: (domain ++ '/' :: 't' :: 'e' :: 's' :: 't' :: '/' :: 'r' :: 'e' :: 'a' :: 'd' :: '.' :: 'c' :: 'g' :: 'i' :: '/' :: (board ++ '/' :: tid)))
      = some ⟨server, domain, board, tid⟩ := by
  have hassoc : server ++ '.' :: (domain ++ '/' :: 't' :: 'e' :: 's' :: 't' :: '/' :: 'r' :: 'e' :: 'a' :: 'd' :: '.' :: 'c' :: 'g' :: 'i' :: '/' :: (board ++ '/' :: tid))
      = (server ++ '.' :: domain) ++ '/' :: 't' :: 'e' :: 's' :: 't' :: '/' :: 'r' :: 'e' :: 'a' :: 'd' :: '.' :: 'c' :: 'g' :: 'i' :: '/' :: (board ++ '/' :: tid) := by
    simp
  rw [hassoc]
  have hhost : ∀ c ∈ server ++ '.' :: domain, notSlash c = true := by
    intro c hc
    apply notSlash_eq_true
    rcases List.mem_append.1 hc with h | h
    · exact fun he => hs2 (he ▸ h)
    · rcases List.mem_cons.1 h with h | h
      · simp [h]
      · exact fun he => hd2 (he ▸ h)
  have hns : notSlash '/' = false := by simp [notSlash]
  have h1 := takeWhile_append_sat notSlash (server ++ '.' :: domain) '/'
    ('t' :: 'e' :: 's' :: 't' :: '/' :: 'r' :: 'e' :: 'a' :: 'd' :: '.' :: 'c' :: 'g' :: 'i' :: '/' :: (board ++ '/' :: tid)) hhost hns
  have h2 := dropWhile_append_sat notSlash (server ++ '.' :: domain) '/'
    ('t' :: 'e' :: 's' :: 't' :: '/' :: 'r' :: 'e' :: 'a' :: 'd' :: '.' :: 'c' :: 'g' :: 'i' :: '/' :: (board ++ '/' :: tid)) hhost hns
  have hlit : ('/' :: 't' :: 'e' :: 's' :: 't' :: '/' :: 'r' :: 'e' :: 'a' :: 'd' :: '.' :: 'c' :: 'g' :: 'i' :: '/' :: (board ++ '/' :: tid) : List Char)
      = ('/' :: 't' :: 'e' :: 's' :: 't' :: '/' :: 'r' :: 'e' :: 'a' :: 'd' :: '.' :: 'c' :: 'g' :: 'i' :: '/' :: []) ++ (board ++ '/' :: tid) := by
    simp
  have h3 := takeWhile_append_sat notSlash board '/' tid (ne_slash_of_not_mem hb2) hns
  have h4 := dropWhile_append_sat notSlash board '/' tid (ne_slash_of_not_mem hb2) hns
  have h5 := takeWhile_all _ tid ht1
  simp only [matchHost]
  rw [h1, h2, hlit, stripPre_append, splitLastDot_append hd3 hd1]
  simp [h3, h4, h5, hs1, hb1, ht2]

theorem scanUrl_cons_of_match {c : Char} {cs : List Char} {caps : UrlCaps}
    (h : matchUrlAt (c :: cs) = some caps) : scanUrl (c :: cs) = some caps := by
  simp [scanUrl, h]

/-- Claim C3 helper: the live derivation on a well-formed thread URL. -/
theorem convertToDatUrl_caps (url : String) (caps : UrlCaps)
    (h : scanUrl url.data = some caps) (hlen : 5 ≤ caps.threadId.length) :
    convertToDatUrl url false
      = some ("https://" ++ (⟨caps.server⟩ : String) ++ "." ++ (⟨caps.domain⟩ : String) ++ "/" ++ (⟨caps.board⟩ : String) ++ "/dat/" ++ (⟨caps.threadId⟩ : String) ++ ".dat") := by
  unfold convertToDatUrl
  rw [h]
  simp [Nat.not_lt.2 hlen]

theorem matchUrlAt_https (R : List Char) :
    matchUrlAt ('h' :: 't' :: 't' :: 'p' :: 's' :: ':' :: '/' :: '/' :: R) = matchHost R := by
  simp [matchUrlAt, stripPre]

theorem matchUrlAt_http (R : List Char) :
    matchUrlAt ('h' :: 't' :: 't' :: 'p' :: ':' :: '/' :: '/' :: R) = matchHost R := by
  simp [matchUrlAt, stripPre]

/-! ## Claim theorems: URL deriver -/

/-- Claim C2 (code_bug evidence): on a flagship-domain thread URL with
`isDatOchi = true`, the code takes the `kako` branch, not the `oyster`
branch the claim describes: the greedy regex captures `domain = "net"`,
never `"5ch.net"`, so the flagship comparison can never succeed. -/
theorem convertToDatUrl_flagship_takes_kako_branch :
    convertToDatUrl "https://nova.5ch.net/test/read.cgi/board/1234567890" true
      = some "https://nova.5ch.net/board/kako/1234/12345/1234567890.dat" ∧
    convertToDatUrl "https://nova.5ch.net/test/read.cgi/board/1234567890" true
      ≠ some "https://nova.5ch.net/board/oyster/1234/1234567890.dat" := by
  constructor
  · decide
  · decide

/-- Claim C3 (counterexample): the derived URL does not keep the input URL's
scheme; an `http` thread URL yields an `https` dat URL. -/
theorem convertToDatUrl_scheme_not_preserved :
    convertToDatUrl "http://a.b/test/read.cgi/c/12345" false
      = some "https://a.b/c/dat/12345.dat" ∧
    ("https://a.b/c/dat/12345.dat" : String) ≠ "http://a.b/c/dat/12345.dat" := by
  constructor
  · decide
  · decide

/-- Claim C3 (amended): for every thread URL
`scheme://{server}.{domain}/test/read.cgi/{board}/{threadId}` (scheme http or
https, well-formed components, the domain being the dot-free last host label,
threadId at least 5 digits), `deriveDatUrl(url, false)` returns
`https://{server}.{domain}/{board}/dat/{threadId}.dat`: the server, domain
and board of the input URL are kept, but the scheme is always `https`. -/
theorem convertToDatUrl_live_format (scheme server domain board tid : String)
    (hscheme : scheme = "http" ∨ scheme = "https")
    (hs1 : server.data ≠ []) (hs2 : '/' ∉ server.data)
    (hd1 : domain.data ≠ []) (hd2 : '/' ∉ domain.data) (hd3 : '.' ∉ domain.data)
    (hb1 : board.data ≠ []) (hb2 : '/' ∉ board.data)
    (ht1 : ∀ c ∈ tid.data, c.isDigit = true) (ht2 : 5 ≤ tid.data.length) :
    convertToDatUrl (threadUrlOf scheme server domain board tid) false
      = some ("https://" ++ server ++ "." ++ domain ++ "/" ++ board ++ "/dat/" ++ tid ++ ".dat") := by
  have htne : tid.data ≠ [] := by
    intro h
    rw [h] at ht2
    simp at ht2
  have hmh := matchHost_eval server.data domain.data board.data tid.data hs1 hs2 hd1 hd2 hd3 hb1 hb2 ht1 htne
  have hcaps : scanUrl (threadUrlOf scheme server domain board tid).data
      = some ⟨server.data, domain.data, board.data, tid.data⟩ := by
    rcases hscheme with h | h
    · subst h
      have hdata : (threadUrlOf "http" server domain board tid).data
          = 'h' :: 't' :: 't' :: 'p' :: ':' :: '/' :: '/' :: (server.data ++ '.' :: (domain.data ++ '/' :: 't' :: 'e' :: 's' :: 't' :: '/' :: 'r' :: 'e' :: 'a' :: 'd' :: '.' :: 'c' :: 'g' :: 'i' :: '/' :: (board.data ++ '/' :: tid.data))) := by
        simp [threadUrlOf, String.data_append]
      rw [hdata]
      apply scanUrl_cons_of_match
      rw [matchUrlAt_http]
      exact hmh
    · subst h
      have hdata : (threadUrlOf "https" server domain board tid).data
          = 'h' :: 't' :: 't' :: 'p' :: 's' :: ':' :: '/' :: '/' :: (server.data ++ '.' :: (domain.data ++ '/' :: 't' :: 'e' :: 's' :: 't' :: '/' :: 'r' :: 'e' :: 'a' :: 'd' :: '.' :: 'c' :: 'g' :: 'i' :: '/' :: (board.data ++ '/' :: tid.data))) := by
        simp [threadUrlOf, String.data_append]
      rw [hdata]
      apply scanUrl_cons_of_match
      rw [matchUrlAt_https]
      exact hmh
  have hfin := convertToDatUrl_caps (threadUrlOf scheme server domain board tid) _ hcaps ht2
  rw [hfin]

/-- Claim C3 (witness): a concrete live conversion through the amended theorem. -/
theorem convertToDatUrl_live_format_witness :
    convertToDatUrl (threadUrlOf "https" "nova.5ch" "net" "board" "1234567890") false
      = some "https://nova.5ch.net/board/dat/1234567890.dat" := by
  have h := convertToDatUrl_live_format "https" "nova.5ch" "net" "board" "1234567890"
    (Or.inr rfl) (by decide) (by decide) (by decide) (by decide) (by decide)
    (by decide) (by decide) (by decide) (by decide)
  rw [h]
  decide

/-- Claim C4: `deriveDatUrl` returns null whenever the URL does not match the
thread-URL pattern, or the matched threadId has fewer than 5 characters. -/
theorem convertToDatUrl_invalid_returns_none (url : String) (b : Bool)
    (h : scanUrl url.data = none ∨ ∃ caps, scanUrl url.data = some caps ∧ caps.threadId.length < 5) :
    convertToDatUrl url b = none := by
  unfold convertToDatUrl
  rcases h with h | ⟨caps, h, hlen⟩
  · rw [h]
  · rw [h]
    simp [hlen]

/-- Claim C4 (witness): a URL without `/test/read.cgi/` and one whose thread
id has fewer than 5 digits both yield null. -/
theorem convertToDatUrl_invalid_returns_none_witness :
    convertToDatUrl "https://example.com/foo" true = none ∧
    convertToDatUrl "https://a.b/test/read.cgi/c/123" false = none :=
  ⟨convertToDatUrl_invalid_returns_none _ _ (Or.inl (by decide)),
   convertToDatUrl_invalid_returns_none _ _
     (Or.inr ⟨⟨['a'], ['b'], ['c'], ['1', '2', '3']⟩, by decide, by decide⟩)⟩

/-! ## Helper lemmas: the dat parser -/

theorem parseLine_eq (l : List Char) :
    parseLine l = if 4 ≤ (splitSep l).length then some (extractPost l) else none := by
  rcases hsp : splitSep l with _ | ⟨n, _ | ⟨m, _ | ⟨d, _ | ⟨msg, t⟩⟩⟩⟩ <;>
    simp [parseLine, extractPost, hsp, Nat.le_add_left]

theorem filterMap_eq_map_filter {α β : Type} (f : α → Option β) (g : α → β) (p : α → Bool)
    (hf : ∀ a, f a = if p a then some (g a) else none) :
    ∀ l : List α, l.filterMap f = (l.filter p).map g := by
  intro l
  induction l with
  | nil => rfl
  | cons a l ih =>
    by_cases h : p a
    · simp [List.filterMap_cons, List.filter_cons, hf a, h, ih]
    · simp [List.filterMap_cons, List.filter_cons, hf a, h, ih]

theorem parseDatFile_eq (content : String) :
    parseDatFile content = ((splitLines content.data).filter goodLine).map extractPost := by
  unfold parseDatFile
  rw [filterMap_eq_map_filter parseLine extractPost (fun l => decide (4 ≤ (splitSep l).length))
    (fun l => by rw [parseLine_eq l]; by_cases h : 4 ≤ (splitSep l).length <;> simp [h])]
  rw [List.filter_filter]
  rfl

/-! ## Claim theorems: the dat parser -/

/-- Claim C7: `parseDatFile` yields exactly one post, in order, for every
line that is neither whitespace-only nor short of 4 fields, and nothing for
any other line; empty, whitespace-only and all-malformed inputs give the
empty sequence. -/
theorem parseDatFile_good_lines_only :
    (∀ content : String, parseDatFile content
        = ((splitLines content.data).filter goodLine).map extractPost) ∧
    parseDatFile "" = [] ∧
    parseDatFile "   \n\n" = [] ∧
    parseDatFile "a<>b<>c\nd<>e<>f" = [] := by
  refine ⟨parseDatFile_eq, ?_, ?_, ?_⟩
  · decide
  · decide
  · decide

/-- Claim C8: the placeholder name is substituted exactly when the name
field is the empty string; any non-empty name field, including a
whitespace-only one, is carried into the post verbatim. -/
theorem parseDatFile_name_placeholder_policy (l n m d msg : List Char) (t : List (List Char))
    (h : splitSep l = n :: m :: d :: msg :: t) :
    ∃ p, parseLine l = some p ∧ p.name = (if n = [] then ("名無しさん" : String) else ⟨n⟩) := by
  refine ⟨{ name := if n = [] then "名無しさん" else ⟨n⟩
          , mail := ⟨m⟩
          , date := ⟨jsTrim (removeId d)⟩
          , id := ⟨(findId d).getD []⟩
          , message := ⟨msg⟩ }, ?_, rfl⟩
  unfold parseLine
  rw [h]

/-- Claim C8 (witness): a whitespace-only name field is kept verbatim, not
replaced by the placeholder. -/
theorem parseDatFile_name_placeholder_policy_witness :
    ∃ p, parseLine (String.data " <>m<>d<>x") = some p ∧ p.name = " " := by
  obtain ⟨p, hp, hn⟩ := parseDatFile_name_placeholder_policy (String.data " <>m<>d<>x")
    [' '] ['m'] ['d'] ['x'] [] (by decide)
  refine ⟨p, hp, ?_⟩
  rw [hn]
  decide

/-! ## Helper lemmas: structure of `splitSep` -/

theorem splitSep_ne_nil (l : List Char) : splitSep l ≠ [] := by
  rcases l with _ | ⟨c1, _ | ⟨c2, cs⟩⟩
  · simp [splitSep]
  · simp [splitSep]
  · by_cases h : c1 = '<' ∧ c2 = '>'
    · simp [splitSep, h]
    · simp only [splitSep, if_neg h]
      cases hs : splitSep (c2 :: cs) <;> simp

theorem splitSep_head_shape (cs : List Char) (p : List Char) (ps : List (List Char))
    (h : splitSep cs = p :: ps) : p = [] ∨ ∃ c' cs' p', cs = c' :: cs' ∧ p = c' :: p' := by
  rcases cs with _ | ⟨c', _ | ⟨c2, cs''⟩⟩
  · left
    simp [splitSep] at h
    exact h.1
  · right
    simp [splitSep] at h
    exact ⟨c', [], [], rfl, h.1.symm⟩
  · by_cases hx : c' = '<' ∧ c2 = '>'
    · left
      simp [splitSep, hx] at h
      exact h.1
    · simp only [splitSep, if_neg hx] at h
      cases hs : splitSep (c2 :: cs'') with
      | nil => exact absurd hs (splitSep_ne_nil _)
      | cons q qs =>
        right
        rw [hs] at h
        injection h with h1 h2
        exact ⟨c', c2 :: cs'', q, rfl, h1.symm⟩

theorem hasSep_cons_cons (c1 c2 : Char) (cs : List Char) :
    hasSep (c1 :: c2 :: cs) = ((decide (c1 = '<') && decide (c2 = '>')) || hasSep (c2 :: cs)) := by
  rfl

theorem splitSep_parts_noSep_aux :
    ∀ n (l : List Char), l.length ≤ n → ∀ part ∈ splitSep l, hasSep part = false := by
  intro n
  induction n with
  | zero =>
    intro l hl part hp
    have hnil : l = [] := List.eq_nil_of_length_eq_zero (Nat.le_zero.1 hl)
    subst hnil
    simp [splitSep] at hp
    subst hp
    rfl
  | succ n ih =>
    intro l hl part hp
    rcases l with _ | ⟨c1, _ | ⟨c2, cs⟩⟩
    · simp [splitSep] at hp
      subst hp
      rfl
    · simp [splitSep] at hp
      subst hp
      rfl
    · have hlcs : (c2 :: cs).length ≤ n := by
        simp at hl
        simp
        omega
      by_cases h : c1 = '<' ∧ c2 = '>'
      · rw [splitSep, if_pos h] at hp
        rcases List.mem_cons.1 hp with rfl | hp'
        · simp [hasSep]
        · exact ih cs (by simp at hlcs ⊢; omega) part hp'
      · rw [splitSep, if_neg h] at hp
        cases hs : splitSep (c2 :: cs) with
        | nil => exact absurd hs (splitSep_ne_nil _)
        | cons q qs =>
          rw [hs] at hp
          rcases List.mem_cons.1 hp with rfl | hp'
          · rcases splitSep_head_shape (c2 :: cs) q qs hs with hq | ⟨c', cs', p', heq, hq⟩
            · subst hq
              rfl
            · injection heq with he1 he2
              subst he1
              subst hq
              rw [hasSep_cons_cons]
              have hqmem : hasSep (c2 :: p') = false :=
                have : (c2 :: p') ∈ splitSep (c2 :: cs) := by rw [hs]; exact List.mem_cons_self _ _
                ih (c2 :: cs) hlcs _ this
              rw [hqmem]
              simp only [Bool.or_false]
              by_cases h1 : c1 = '<'
              · have h2 : c2 ≠ '>' := fun hx => h ⟨h1, hx⟩
                simp [h1, h2]
              · simp [h1]
          · exact ih (c2 :: cs) hlcs part (by rw [hs]; exact List.mem_cons_of_mem _ hp')

theorem splitSep_parts_noSep {l part : List Char} (hp : part ∈ splitSep l) :
    hasSep part = false :=
  splitSep_parts_noSep_aux l.length l (Nat.le_refl _) part hp

theorem splitSep_append_sep {n : List Char} (rest : List Char) (h : hasSep n = false) :
    splitSep (n ++ '<' :: '>' :: rest) = n :: splitSep rest := by
  induction n with
  | nil => simp [splitSep]
  | cons a n ih =>
    cases n with
    | nil =>
      have hne : ¬(a = '<' ∧ '<' = '>') := by simp
      simp only [List.nil_append, List.cons_append, splitSep, if_neg hne]
      simp [splitSep]
    | cons b n' =>
      rw [hasSep_cons_cons] at h
      have hab : ¬(a = '<' ∧ b = '>') := by
        intro ⟨h1, h2⟩
        simp [h1, h2] at h
      have hbn : hasSep (b :: n') = false := by
        rcases Bool.or_eq_false_iff.1 h with ⟨_, h2⟩
        exact h2
      have ih' := ih hbn
      simp only [List.cons_append] at ih' ⊢
      rw [splitSep, if_neg hab, ih']

theorem splitSep_noSep_self {m : List Char} (h : hasSep m = false) : splitSep m = [m] := by
  induction m with
  | nil => rfl
  | cons a m ih =>
    cases m with
    | nil => rfl
    | cons b m' =>
      rw [hasSep_cons_cons] at h
      have hab : ¬(a = '<' ∧ b = '>') := by
        intro ⟨h1, h2⟩
        simp [h1, h2] at h
      have hbn : hasSep (b :: m') = false := by
        rcases Bool.or_eq_false_iff.1 h with ⟨_, h2⟩
        exact h2
      rw [splitSep, if_neg hab, ih hbn]

/-- Claim C10: fields beyond the fourth are ignored: a line with at least 4
fields parses to the same post as the line truncated to its first 4 fields. -/
theorem parseLine_ignores_extra_fields (l n m d msg : List Char) (t : List (List Char))
    (h : splitSep l = n :: m :: d :: msg :: t) :
    parseLine l = parseLine (n ++ '<' :: '>' :: (m ++ '<' :: '>' :: (d ++ '<' :: '>' :: msg))) := by
  have hn : hasSep n = false := splitSep_parts_noSep (l := l) (by rw [h]; simp)
  have hm : hasSep m = false := splitSep_parts_noSep (l := l) (by rw [h]; simp)
  have hd : hasSep d = false := splitSep_parts_noSep (l := l) (by rw [h]; simp)
  have hmsg : hasSep msg = false := splitSep_parts_noSep (l := l) (by rw [h]; simp)
  have hs : splitSep (n ++ '<' :: '>' :: (m ++ '<' :: '>' :: (d ++ '<' :: '>' :: msg))) = [n, m, d, msg] := by
    rw [splitSep_append_sep _ hn, splitSep_append_sep _ hm, splitSep_append_sep _ hd,
        splitSep_noSep_self hmsg]
  unfold parseLine
  rw [h, hs]

/-- Claim C10 (witness): a concrete line with a historical 5th title field
parses identically to its first 4 fields. -/
theorem parseLine_ignores_extra_fields_witness :
    parseLine (String.data "a<>b<>c<>d<>title") = parseLine (String.data "a<>b<>c<>d") := by
  have h := parseLine_ignores_extra_fields (String.data "a<>b<>c<>d<>title")
    ['a'] ['b'] ['c'] ['d'] [['t', 'i', 't', 'l', 'e']] (by decide)
  rw [h]
  rfl

theorem parseLine_some_shape {l : List Char} {p : Post} (h : parseLine l = some p) :
    ∃ n m d msg t, splitSep l = n :: m :: d :: msg :: t ∧
      p.name = (if n = [] then ("名無しさん" : String) else ⟨n⟩) := by
  unfold parseLine at h
  rcases hsp : splitSep l with _ | ⟨n, _ | ⟨m, _ | ⟨d, _ | ⟨msg, t⟩⟩⟩⟩ <;> rw [hsp] at h <;>
    simp at h
  exact ⟨n, m, d, msg, t, rfl, by rw [← h]⟩

/-- Claim C9 (amended): every post produced by the dat parser has a
non-empty name (the placeholder substitution guarantees it).  The HTML
parser does not share this property; see the counterexample. -/
theorem parseDatFile_name_nonempty (content : String) (p : Post)
    (hp : p ∈ parseDatFile content) : p.name ≠ "" := by
  unfold parseDatFile at hp
  obtain ⟨l, hl, hpl⟩ := List.mem_filterMap.1 hp
  obtain ⟨n, m, d, msg, t, hsp, hname⟩ := parseLine_some_shape hpl
  rw [hname]
  by_cases hn : n = []
  · rw [if_pos hn]
    decide
  · rw [if_neg hn]
    intro he
    exact hn (congrArg String.data he)

/-- Claim C9 (witness): a post parsed from a concrete dat line has a
non-empty name. -/
theorem parseDatFile_name_nonempty_witness :
    ({ name := "a", mail := "b", date := "c", id := "", message := "d" } : Post).name ≠ "" :=
  parseDatFile_name_nonempty "a<>b<>c<>d" _ (by decide)

/-! ## Claim theorems: the dat serializer -/

theorem joinLinesSpec_data (ls : List String) :
    (joinLinesSpec ls).data = joinNl (ls.map String.data) := by
  induction ls with
  | nil => rfl
  | cons l ls ih =>
    cases ls with
    | nil => rfl
    | cons l2 ls' =>
      show (l ++ "\n" ++ joinLinesSpec (l2 :: ls')).data
          = l.data ++ '\n' :: joinNl ((l2 :: ls').map String.data)
      rw [String.data_append, String.data_append, ih]
      simp

theorem specLine_data (p : Post) : (specLine p).data = serializeLine p := by
  unfold specLine serializeLine
  by_cases h : p.id = ""
  · have hd : p.id.data = [] := congrArg String.data h
    rw [if_neg (fun hne => hne h), if_pos hd]
    simp [String.data_append]
  · have hd : p.id.data ≠ [] := fun hnil => h (String.ext hnil)
    rw [if_pos h, if_neg hd]
    simp [String.data_append]

/-- Claim C6: `serializeDat` emits, for each post, the record
`{name}<>{mail}<>{date}{" ID:"+id if id non-empty}<>{message}<>`, joins the
records with line feed, and appends one trailing line feed exactly when the
sequence is non-empty; the empty sequence serializes to the empty string. -/
theorem serializeDat_matches_spec (posts : List Post) :
    serializeDat posts = serializeDatSpec posts := by
  apply String.ext
  show joinNl (posts.map serializeLine) ++ (if posts.isEmpty then [] else ['\n'])
      = (joinLinesSpec (posts.map specLine) ++ (if posts.isEmpty then ("" : String) else "\n")).data
  rw [String.data_append, joinLinesSpec_data, List.map_map]
  have hmap : posts.map (String.data ∘ specLine) = posts.map serializeLine := by
    simp [Function.comp_def, specLine_data]
  rw [hmap]
  cases posts with
  | nil => rfl
  | cons p ps => rfl

/-! ## Helper lemmas: round-tripping one record -/

theorem findId_cons_none {c : Char} {cs : List Char} (h : findId (c :: cs) = none) :
    idRunAt (c :: cs) = none ∧ findId cs = none := by
  unfold findId at h
  cases hr : idRunAt (c :: cs) with
  | some v =>
    rw [hr] at h
    rcases v with ⟨run, after⟩
    simp at h
  | none =>
    rw [hr] at h
    exact ⟨rfl, h⟩

theorem removeId_of_none {l : List Char} (h : findId l = none) : removeId l = l := by
  induction l with
  | nil => rfl
  | cons c cs ih =>
    obtain ⟨h1, h2⟩ := findId_cons_none h
    unfold removeId
    rw [h1]
    exact congrArg (c :: ·) (ih h2)

theorem takeWhile_nonWs_eq_nil {l S : List Char}
    (h : l.takeWhile nonWs = []) : (l ++ ' ' :: S).takeWhile nonWs = [] := by
  cases l with
  | nil => simp [nonWs, isJsWs]
  | cons w l' =>
    cases hw : nonWs w with
    | true => rw [List.takeWhile_cons_of_pos hw] at h; cases h
    | false => rw [List.cons_append, List.takeWhile_cons_of_neg (by simp [hw])]

theorem idRunAt_append_space {z S' : List Char} (h : idRunAt z = none) :
    idRunAt (z ++ ' ' :: S') = none := by
  rcases z with _ | ⟨c1, _ | ⟨c2, _ | ⟨c3, zr⟩⟩⟩
  · rcases S' with _ | ⟨d1, _ | ⟨d2, S''⟩⟩ <;> simp [idRunAt]
  · rcases S' with _ | ⟨d1, S''⟩ <;> simp [idRunAt]
  · simp [idRunAt]
  · by_cases hcond : c1 = 'I' ∧ c2 = 'D' ∧ c3 = ':'
    · rw [idRunAt, if_pos hcond] at h
      have hrun : zr.takeWhile nonWs = [] := by
        by_contra hx
        rw [if_neg hx] at h
        cases h
      show idRunAt (c1 :: c2 :: c3 :: (zr ++ ' ' :: S')) = none
      rw [idRunAt, if_pos hcond, if_pos (takeWhile_nonWs_eq_nil hrun)]
    · show idRunAt (c1 :: c2 :: c3 :: (zr ++ ' ' :: S')) = none
      rw [idRunAt, if_neg hcond]

theorem findId_cons_eq_of_none {c : Char} {cs : List Char} (h : idRunAt (c :: cs) = none) :
    findId (c :: cs) = findId cs := by
  show (match idRunAt (c :: cs) with
        | some (run, _) => some run
        | none => findId cs) = findId cs
  rw [h]

theorem findId_cons_eq_of_some {c : Char} {cs run after : List Char}
    (h : idRunAt (c :: cs) = some (run, after)) : findId (c :: cs) = some run := by
  show (match idRunAt (c :: cs) with
        | some (run, _) => some run
        | none => findId cs) = some run
  rw [h]

theorem removeId_cons_eq_of_none {c : Char} {cs : List Char} (h : idRunAt (c :: cs) = none) :
    removeId (c :: cs) = c :: removeId cs := by
  show (match idRunAt (c :: cs) with
        | some (_, after) => after
        | none => c :: removeId cs) = c :: removeId cs
  rw [h]

theorem removeId_cons_eq_of_some {c : Char} {cs run after : List Char}
    (h : idRunAt (c :: cs) = some (run, after)) : removeId (c :: cs) = after := by
  show (match idRunAt (c :: cs) with
        | some (_, after) => after
        | none => c :: removeId cs) = after
  rw [h]

theorem findId_append_id {xs ys : List Char} (hxs : findId xs = none)
    (hys1 : ys ≠ []) (hys2 : ∀ c ∈ ys, nonWs c = true) :
    findId (xs ++ ' ' :: 'I' :: 'D' :: ':' :: ys) = some ys ∧
    removeId (xs ++ ' ' :: 'I' :: 'D' :: ':' :: ys) = xs ++ [' '] := by
  induction xs with
  | nil =>
    have hrun : ys.takeWhile nonWs = ys := takeWhile_all nonWs ys hys2
    have hid : idRunAt ('I' :: 'D' :: ':' :: ys) = some (ys, []) := by
      simp only [idRunAt, hrun]
      simp [hys1]
    have hsp : idRunAt (' ' :: 'I' :: 'D' :: ':' :: ys) = none := by
      simp [idRunAt]
    refine ⟨?_, ?_⟩
    · show findId (' ' :: 'I' :: 'D' :: ':' :: ys) = some ys
      rw [findId_cons_eq_of_none hsp, findId_cons_eq_of_some hid]
    · show removeId (' ' :: 'I' :: 'D' :: ':' :: ys) = [' ']
      rw [removeId_cons_eq_of_none hsp, removeId_cons_eq_of_some hid]
  | cons c xs ih =>
    obtain ⟨h1, h2⟩ := findId_cons_none hxs
    have h1' : idRunAt (c :: (xs ++ ' ' :: 'I' :: 'D' :: ':' :: ys)) = none := by
      have hz := @idRunAt_append_space (c :: xs) ('I' :: 'D' :: ':' :: ys) h1
      simpa using hz
    obtain ⟨ihf, ihr⟩ := ih h2
    refine ⟨?_, ?_⟩
    · show findId (c :: (xs ++ ' ' :: 'I' :: 'D' :: ':' :: ys)) = some ys
      rw [findId_cons_eq_of_none h1', ihf]
    · show removeId (c :: (xs ++ ' ' :: 'I' :: 'D' :: ':' :: ys)) = c :: (xs ++ [' '])
      rw [removeId_cons_eq_of_none h1', ihr]

theorem mem_dropWhile_of_mem {l : List Char} {c : Char} (hc : c ∈ l) (hw : isJsWs c = false) :
    c ∈ l.dropWhile isJsWs := by
  induction l with
  | nil => cases hc
  | cons a l ih =>
    by_cases ha : isJsWs a
    · rw [List.dropWhile_cons_of_pos ha]
      rcases List.mem_cons.1 hc with rfl | hc'
      · simp [hw] at ha
      · exact ih hc'
    · rw [List.dropWhile_cons_of_neg ha]
      exact hc

theorem jsTrim_ne_nil_of_mem {l : List Char} {c : Char} (hc : c ∈ l) (hw : isJsWs c = false) :
    jsTrim l ≠ [] := by
  intro h
  unfold jsTrim trimRight at h
  rw [List.reverse_eq_nil_iff] at h
  have hall := List.dropWhile_eq_nil_iff.1 h
  have hc2 : c ∈ (l.dropWhile isJsWs).reverse := List.mem_reverse.2 (mem_dropWhile_of_mem hc hw)
  have := hall c hc2
  rw [hw] at this
  cases this

theorem trimRight_length_le (l : List Char) : (trimRight l).length ≤ l.length := by
  unfold trimRight
  rw [List.length_reverse]
  calc (l.reverse.dropWhile isJsWs).length
      ≤ l.reverse.length := (List.dropWhile_sublist isJsWs).length_le
    _ = l.length := List.length_reverse l

theorem jsTrim_append_space {l : List Char} (h : jsTrim l = l) : jsTrim (l ++ [' ']) = l := by
  cases l with
  | nil => decide
  | cons d0 d' =>
    have hd0 : isJsWs d0 = false := by
      by_contra hws
      have hws' : isJsWs d0 = true := by
        revert hws
        cases isJsWs d0 <;> simp
      have hlen : (jsTrim (d0 :: d')).length ≤ d'.length := by
        unfold jsTrim
        rw [List.dropWhile_cons_of_pos hws']
        calc (trimRight (d'.dropWhile isJsWs)).length
            ≤ (d'.dropWhile isJsWs).length := trimRight_length_le _
          _ ≤ d'.length := (List.dropWhile_sublist isJsWs).length_le
      rw [h] at hlen
      simp at hlen
    have hdrop : (d0 :: d').dropWhile isJsWs = d0 :: d' :=
      List.dropWhile_cons_of_neg (by simp [hd0])
    have htr : trimRight (d0 :: d') = d0 :: d' := by
      unfold jsTrim at h
      rw [hdrop] at h
      exact h
    show jsTrim (d0 :: (d' ++ [' '])) = d0 :: d'
    unfold jsTrim
    rw [List.dropWhile_cons_of_neg (by simp [hd0])]
    unfold trimRight
    rw [show (d0 :: (d' ++ [' '])).reverse = ' ' :: (d0 :: d').reverse from by simp]
    rw [List.dropWhile_cons_of_pos (by decide)]
    exact htr

theorem hasSep_cons_of_ne {c : Char} (hc : c ≠ '<') (l : List Char) :
    hasSep (c :: l) = hasSep l := by
  cases l with
  | nil => rfl
  | cons b l' =>
    rw [hasSep_cons_cons]
    simp [hc]

theorem hasSep_append_false {xs ys : List Char} (hxs : hasSep xs = false)
    (hys : hasSep ys = false) (hhead : ∀ t, ys ≠ '>' :: t) :
    hasSep (xs ++ ys) = false := by
  induction xs with
  | nil => simpa
  | cons a xs ih =>
    cases xs with
    | nil =>
      cases ys with
      | nil => rfl
      | cons y t =>
        rw [List.cons_append, List.nil_append, hasSep_cons_cons]
        have hy : ¬(y = '>') := fun he => hhead t (by rw [he])
        simp [hys, hy]
    | cons b xs' =>
      rw [hasSep_cons_cons] at hxs
      obtain ⟨h1, h2⟩ := Bool.or_eq_false_iff.1 hxs
      rw [List.cons_append, List.cons_append, hasSep_cons_cons]
      have ih' := ih h2
      rw [List.cons_append] at ih'
      simp only [h1, Bool.false_or]
      exact ih'

theorem splitLines_append {xs : List Char} (rest : List Char) (h : '\n' ∉ xs) :
    splitLines (xs ++ '\n' :: rest) = xs :: splitLines rest := by
  induction xs with
  | nil => simp [splitLines]
  | cons c xs ih =>
    have hc : ¬(c = '\n') := fun he => h (by simp [he])
    have h' : '\n' ∉ xs := fun hm => h (List.mem_cons_of_mem c hm)
    rw [List.cons_append]
    simp only [splitLines, if_neg hc, ih h']

theorem splitLines_joinNl {ls : List (List Char)} (hne : ls ≠ []) (h : ∀ l ∈ ls, '\n' ∉ l) :
    splitLines (joinNl ls ++ ['\n']) = ls ++ [[]] := by
  induction ls with
  | nil => cases hne rfl
  | cons l ls ih =>
    cases ls with
    | nil =>
      show splitLines (joinNl [l] ++ ['\n']) = [l, []]
      rw [show joinNl [l] = l from rfl]
      rw [show (l ++ ['\n'] : List Char) = l ++ '\n' :: [] from rfl]
      rw [splitLines_append [] (h l (by simp))]
      rfl
    | cons l2 ls' =>
      show splitLines ((l ++ '\n' :: joinNl (l2 :: ls')) ++ ['\n']) = (l :: l2 :: ls') ++ [[]]
      rw [List.append_assoc]
      rw [show ('\n' :: joinNl (l2 :: ls')) ++ ['\n'] = '\n' :: (joinNl (l2 :: ls') ++ ['\n']) from rfl]
      rw [splitLines_append _ (h l (by simp))]
      rw [ih (by simp) (fun x hx => h x (List.mem_cons_of_mem _ hx))]
      rfl

theorem parseLine_serializeLine {p : Post} (hg : GoodPost p) :
    parseLine (serializeLine p) = some p := by
  obtain ⟨pn, pm, pd, pid, pmsg⟩ := p
  obtain ⟨hn, hm, hd, hi, hmsg2, _, _, _, _, _, hne, hidws, hdtrim, hdfind⟩ := hg
  by_cases hid : pid.data = []
  · have hb : pd.data ++ (if pid.data = [] then [] else ' ' :: 'I' :: 'D' :: ':' :: pid.data)
        = pd.data := by
      rw [if_pos hid, List.append_nil]
    have hsplit : splitSep (serializeLine ⟨pn, pm, pd, pid, pmsg⟩)
        = [pn.data, pm.data, pd.data, pmsg.data, []] := by
      show splitSep (pn.data ++ '<' :: '>' :: (pm.data ++ '<' :: '>' :: ((pd.data ++ (if pid.data = [] then [] else ' ' :: 'I' :: 'D' :: ':' :: pid.data)) ++ '<' :: '>' :: (pmsg.data ++ ['<', '>'])))) = _
      rw [hb]
      rw [splitSep_append_sep _ hn, splitSep_append_sep _ hm, splitSep_append_sep _ hd]
      rw [show (pmsg.data ++ ['<', '>'] : List Char) = pmsg.data ++ '<' :: '>' :: [] from rfl]
      rw [splitSep_append_sep _ hmsg2]
      rfl
    unfold parseLine
    rw [hsplit]
    show some (Post.mk (if pn.data = [] then "名無しさん" else ⟨pn.data⟩) ⟨pm.data⟩
        ⟨jsTrim (removeId pd.data)⟩ ⟨(findId pd.data).getD []⟩ ⟨pmsg.data⟩)
      = some (Post.mk pn pm pd pid pmsg)
    rw [if_neg hne, hdfind, removeId_of_none hdfind, hdtrim]
    show some (Post.mk pn pm pd ⟨[]⟩ pmsg) = some (Post.mk pn pm pd pid pmsg)
    rw [congrArg String.mk hid.symm]
  · have hsuffix : hasSep (' ' :: 'I' :: 'D' :: ':' :: pid.data) = false := by
      rw [hasSep_cons_of_ne (by decide), hasSep_cons_of_ne (by decide),
          hasSep_cons_of_ne (by decide), hasSep_cons_of_ne (by decide)]
      exact hi
    have hblob : hasSep (pd.data ++ ' ' :: 'I' :: 'D' :: ':' :: pid.data) = false :=
      hasSep_append_false hd hsuffix
        (fun t ht => by injection ht with h1 _; exact absurd h1 (by decide))
    obtain ⟨hfind, hremove⟩ := findId_append_id hdfind hid hidws
    have hb : pd.data ++ (if pid.data = [] then [] else ' ' :: 'I' :: 'D' :: ':' :: pid.data)
        = pd.data ++ ' ' :: 'I' :: 'D' :: ':' :: pid.data := by
      rw [if_neg hid]
    have hsplit : splitSep (serializeLine ⟨pn, pm, pd, pid, pmsg⟩)
        = [pn.data, pm.data, pd.data ++ ' ' :: 'I' :: 'D' :: ':' :: pid.data, pmsg.data, []] := by
      show splitSep (pn.data ++ '<' :: '>' :: (pm.data ++ '<' :: '>' :: ((pd.data ++ (if pid.data = [] then [] else ' ' :: 'I' :: 'D' :: ':' :: pid.data)) ++ '<' :: '>' :: (pmsg.data ++ ['<', '>'])))) = _
      rw [hb]
      rw [splitSep_append_sep _ hn, splitSep_append_sep _ hm, splitSep_append_sep _ hblob]
      rw [show (pmsg.data ++ ['<', '>'] : List Char) = pmsg.data ++ '<' :: '>' :: [] from rfl]
      rw [splitSep_append_sep _ hmsg2]
      rfl
    unfold parseLine
    rw [hsplit]
    show some (Post.mk (if pn.data = [] then "名無しさん" else ⟨pn.data⟩) ⟨pm.data⟩
        ⟨jsTrim (removeId (pd.data ++ ' ' :: 'I' :: 'D' :: ':' :: pid.data))⟩
        ⟨(findId (pd.data ++ ' ' :: 'I' :: 'D' :: ':' :: pid.data)).getD []⟩ ⟨pmsg.data⟩)
      = some (Post.mk pn pm pd pid pmsg)
    rw [if_neg hne, hfind, hremove, jsTrim_append_space hdtrim]
    rfl

theorem serializeLine_no_nl {p : Post} (hg : GoodPost p) : '\n' ∉ serializeLine p := by
  obtain ⟨_, _, _, _, _, h6, h7, h8, h9, h10, _, _, _, _⟩ := hg
  intro hmem
  unfold serializeLine at hmem
  by_cases hid : p.id.data = []
  · rw [if_pos hid] at hmem
    simp [h6, h7, h8, h10] at hmem
  · rw [if_neg hid] at hmem
    simp [h6, h7, h8, h9, h10] at hmem

theorem jsTrim_serializeLine_ne_nil (p : Post) : jsTrim (serializeLine p) ≠ [] := by
  apply jsTrim_ne_nil_of_mem (c := '<')
  · unfold serializeLine
    simp
  · decide

theorem filterMap_parse_serialize {posts : List Post} (hg : ∀ p ∈ posts, GoodPost p) :
    posts.filterMap (parseLine ∘ serializeLine) = posts := by
  induction posts with
  | nil => rfl
  | cons p ps ih =>
    have h1 : (parseLine ∘ serializeLine) p = some p :=
      parseLine_serializeLine (hg p (List.mem_cons_self _ _))
    simp only [List.filterMap_cons, h1]
    exact congrArg (p :: ·) (ih fun q hq => hg q (List.mem_cons_of_mem _ hq))

/-- Claim C1 (amended): serializing and re-parsing is the identity on every
non-empty post sequence whose posts satisfy `GoodPost`: no `<>` and no line
feed in any field, a non-empty name, a whitespace-free id, and a date that
is already trimmed and contains no `ID:`-plus-non-whitespace run. -/
theorem parse_serializeDat_roundtrip (posts : List Post) (hne : posts ≠ [])
    (hg : ∀ p ∈ posts, GoodPost p) :
    parseDatFile (serializeDat posts) = posts := by
  have hdata : (serializeDat posts).data = joinNl (posts.map serializeLine) ++ ['\n'] := by
    cases posts with
    | nil => cases hne rfl
    | cons p ps => rfl
  unfold parseDatFile
  rw [hdata]
  rw [splitLines_joinNl (by simpa using hne) (by
    intro l hl
    obtain ⟨p, hp, rfl⟩ := List.mem_map.1 hl
    exact serializeLine_no_nl (hg p hp))]
  rw [List.filter_append]
  have h1 : (posts.map serializeLine).filter (fun l => !(jsTrim l).isEmpty)
      = posts.map serializeLine := by
    apply List.filter_eq_self.mpr
    intro l hl
    obtain ⟨p, hp, rfl⟩ := List.mem_map.1 hl
    simpa using jsTrim_serializeLine_ne_nil p
  have h2 : List.filter (fun l => !(jsTrim l).isEmpty) [([] : List Char)] = [] := by decide
  rw [h1, h2, List.append_nil]
  rw [List.filterMap_map]
  exact filterMap_parse_serialize hg

/-- Claim C1 (counterexample): the round-trip fails for a post with an empty
name even though no field contains `<>`: the parser substitutes the
placeholder name, so the parsed sequence differs from the original. -/
theorem roundtrip_fails_on_empty_name :
    parseDatFile (serializeDat [{ name := "", mail := "", date := "", id := "", message := "" }])
      = [{ name := "名無しさん", mail := "", date := "", id := "", message := "" }] ∧
    ({ name := "名無しさん", mail := "", date := "", id := "", message := "" } : Post)
      ≠ { name := "", mail := "", date := "", id := "", message := "" } := by
  constructor
  · decide
  · decide

/-- Claim C1 (witness): the round-trip on a concrete well-formed post. -/
theorem parse_serializeDat_roundtrip_witness :
    parseDatFile (serializeDat
      [{ name := "john", mail := "sage", date := "2024/01/01 00:00:00.00", id := "AbCd12", message := "hello world<br>bye" }])
      = [{ name := "john", mail := "sage", date := "2024/01/01 00:00:00.00", id := "AbCd12", message := "hello world<br>bye" }] :=
  parse_serializeDat_roundtrip _ (by decide) (by decide)

/-! ## Claim theorems: the HTML pipeline -/

/-- Claim C5: the tag-normalization transform on the spec's example input:
the break is kept, the span is stripped with its inner text kept, and the
anchor is rebuilt with only its href and original inner content. -/
theorem stripTagsKeepBrA_normalize_example :
    stripTagsKeepBrA "a<br>b<span>c</span><a href=\"x\">d</a>"
      = "a<br>bc<a href=\"x\">d</a>" := by
  decide

/-- Claim C9 (counterexample): `parseHtmlPosts` can produce a displayed post
whose name is the empty string: a post container without a username block
yields `name = ""`, so not every parsed post fed to display has a non-empty
name. -/
theorem parseHtmlPosts_empty_name_example :
    (parseHtmlPosts "<div id=\"1\" class=\"post\"></div>").map Post.name = [""] := by
  decide

end FiveChUtils
